import Mathlib

/-!
Verification of the merkle-tree repository (`src/hasher.rs`,
`src/merkle_tree.rs`): a shallow embedding of the digest abstraction and of
the flat-array tree builder, together with proofs of the specification's
claims about them.

Modelling conventions:
* byte buffers (`&[u8]`, `Vec<u8>`) are lists of naturals;
* the `Hasher` trait is a structure of its operations over an abstract
  digest type, so every theorem below is generic in the plugged-in hash;
* `Vec` indexing that can panic is read through `getElem?` and surfaced as
  `Option`; the non-structural recursion of `build_parents` carries a fuel
  counter, and `none` models divergence (which the source exhibits on an
  empty level) or an out-of-bounds panic;
* the `f32` computation in `calculate_height` is modelled by exact integer
  arithmetic, proved below to agree with rounding the real base-2
  logarithm. This idealisation is exact at small leaf counts (in
  particular at every reference input used below, where the logarithm sits
  far from any half-integer relative to f32 error), but it is not the
  program for all inputs: the computed float can land exactly on a
  representable half-integer even though the real value has no ties
  (e.g. at 741454 leaves a correctly-rounded `log2f` returns exactly
  19.5, which rounds to 20, while the real logarithm is slightly below
  19.5), and the precision of Rust's `f32::log2` is platform-dependent,
  so no claim quantifying over all leaf counts is proved of the float
  formula itself.
-/

namespace Merkle

/-- A byte buffer (`&[u8]` / `Vec<u8>`): a list of naturals. -/
abbrev Bytes := List Nat

/-- Model of the `Hasher` trait (src/hasher.rs): an abstract digest type
`Hash` with the trait's operations — `hash` digests a byte buffer,
`toBytes` is the `Into<Vec<u8>>` bound on `Hasher::Hash`, and `hash_size`
is `Hasher::hash_size()` (`mem::size_of::<Self::Hash>()`). -/
structure HasherM (Hash : Type) where
  hash : Bytes → Hash
  toBytes : Hash → Bytes
  hash_size : Nat

variable {Hash : Type}

/-- Function `Hasher::hash_pair` (src/hasher.rs): start from `left`'s bytes; when a
right sibling is present, append its bytes and hash the concatenation;
when it is absent, return `left` itself. -/
def hash_pair (H : HasherM Hash) (left : Hash) (right : Option Hash) : Hash :=
  let combined : Bytes := H.toBytes left
  match right with
  | some r => H.hash (combined ++ H.toBytes r)
  | none => left

/-- The `for i in 0..new_len` loop of `MerkleTree::build_parents`
(src/merkle_tree.rs), iterated `count` more times from loop index `i`:
each iteration reads `self.tree[start_index + 2*i]` (a panicking index,
hence `Option`), reads `self.tree.get(start_index + 2*i + 1)`, and pushes
their `hash_pair` onto the end of the growing vector. -/
def push_pairs (H : HasherM Hash) (tree : List Hash) (start i : Nat) :
    Nat → Option (List Hash)
  | 0 => some tree
  | count + 1 =>
    match tree[start + 2 * i]? with
    | none => none
    | some left =>
      push_pairs H (tree ++ [hash_pair H left tree[start + 2 * i + 1]?])
        start (i + 1) count

/-- Function `MerkleTree::build_parents` (src/merkle_tree.rs), with one unit of fuel
per recursive call so that the non-structural recursion is total: return at
level length 1; otherwise push the `length / 2` pairs, re-push the last
entry of an odd level and grow the next level's length by one, then recurse
at `start_index + length`. `none` models running out of fuel — in
particular the source's infinite recursion on a level of length 0 — or a
panicking index. -/
def build_parents_fuel (H : HasherM Hash) :
    Nat → List Hash → Nat → Nat → Option (List Hash)
  | 0, _, _, _ => none
  | fuel + 1, tree, start, length =>
    if length = 1 then some tree
    else
      match push_pairs H tree start 0 (length / 2) with
      | none => none
      | some t =>
        if length % 2 = 1 then
          match t[start + length - 1]? with
          | none => none
          | some last =>
            build_parents_fuel H fuel (t ++ [last]) (start + length)
              (length / 2 + 1)
        else
          build_parents_fuel H fuel t (start + length) (length / 2)

/-- Entry point of `MerkleTree::build_parents`: the level lengths strictly decrease
from the initial `length` down to 1, so `length` units of fuel suffice for
every terminating run (proved below); a start length of 0 yields `none`,
matching the source's divergence there. -/
def build_parents (H : HasherM Hash) (tree : List Hash) (start length : Nat) :
    Option (List Hash) :=
  build_parents_fuel H length tree start length

/-- Fueled floor of the base-2 logarithm; `fuel ≥ m` makes it exact. -/
def floorLog2Aux : Nat → Nat → Nat
  | 0, _ => 0
  | fuel + 1, m => if m ≤ 1 then 0 else floorLog2Aux fuel (m / 2) + 1

/-- Floor of the base-2 logarithm (0 at 0 and 1). -/
def floorLog2 (m : Nat) : Nat := floorLog2Aux m m

/-- Function `MerkleTree::calculate_height` (src/merkle_tree.rs): 1 for a single
leaf, otherwise `(num_leaves as f32 + 1.0).log2().round() as usize`. The
float expression is idealised by exact arithmetic on the real logarithm:
with `f` the floor of `log2 (num_leaves + 1)`, the rounded value is
`f + 1` precisely when the fractional part is at least one half, i.e.
when `2 ^ (2*f + 1) ≤ (num_leaves + 1)^2`; `calculate_height_eq_round`
below proves this equal to rounding the real base-2 logarithm. Beware
that this is an idealisation, not the f32 program: the float computed by
`log2f` can be exactly a representable half-integer even though the real
logarithm never ties at integer arguments (see the module header), so
only evaluations at leaf counts where f32 is provably exact — such as
the small reference inputs below — transfer to the source. -/
def calculate_height (num_leaves : Nat) : Nat :=
  if num_leaves = 1 then 1
  else
    let m := num_leaves + 1
    let f := floorLog2 m
    if 2 ^ (2 * f + 1) ≤ m * m then f + 1 else f

/-- Function `MerkleTree::calculate_nodes` (src/merkle_tree.rs):
`2usize.pow((self.height + 1) as u32) - 1`. -/
def calculate_nodes (height : Nat) : Nat := 2 ^ (height + 1) - 1

/-- The `MerkleTree<T>` struct (src/merkle_tree.rs): the flat vector of
digests plus the four scalar fields. -/
structure MerkleTree (Hash : Type) where
  tree : List Hash
  leaves : Nat
  nodes : Nat
  height : Nat
  hash_size : Nat
deriving DecidableEq

/-- Function `MerkleTree::hash_leaves` (src/merkle_tree.rs): hash every input item. -/
def hash_leaves (H : HasherM Hash) (data : List Bytes) : List Hash :=
  data.map H.hash

/-- Function `MerkleTree::from_leaves` composed with `new` and `build_tree`
(src/merkle_tree.rs): starting from `new()`'s zeroed fields, `build_tree`
sets `height` from the leaf count, sets `nodes` from `height`, seeds the
vector with the hashed leaves (`Vec::with_capacity` + `extend`) and runs
`build_parents(0, hashed.len())`. Neither `from_leaves` nor `build_tree`
ever assigns the `leaves` field, so it keeps `new()`'s value 0. `none`
propagates a non-terminating or panicking build. -/
def from_leaves (H : HasherM Hash) (data : List Bytes) :
    Option (MerkleTree Hash) :=
  let hashed := hash_leaves H data
  let height := calculate_height hashed.length
  let nodes := calculate_nodes height
  match build_parents H hashed 0 hashed.length with
  | none => none
  | some t =>
    some { tree := t, leaves := 0, nodes := nodes, height := height,
           hash_size := H.hash_size }

/-- The `MerkleTree::nodes()` accessor (src/merkle_tree.rs), which returns
`self.tree.len()` — the occupied length, not the `nodes` field. -/
def MerkleTree.nodesCount (m : MerkleTree Hash) : Nat := m.tree.length

/-! ## Functional description of one combination level

The next definitions follow the specification's words for the
level-combination step (§4.2 of the spec): pair adjacent digests
left-to-right, carry the unpaired digest of an odd level forward verbatim.
The refinement theorems below connect them to `build_parents`. -/

/-- The pairs of one level, spec side: combine adjacent digests
left-to-right, dropping an unpaired tail. -/
def pairsOf (H : HasherM Hash) : List Hash → List Hash
  | a :: b :: rest => hash_pair H a (some b) :: pairsOf H rest
  | _ => []

/-- One full level, spec side: the adjacent pairs followed by the unpaired
digest of an odd level, carried forward unchanged. -/
def next_level (H : HasherM Hash) : List Hash → List Hash
  | a :: b :: rest => hash_pair H a (some b) :: next_level H rest
  | l => l

/-- Everything the builder appends above a level, spec side (fueled): the
next level, then everything above it, until a level of length 1. -/
def build_from_fuel (H : HasherM Hash) : Nat → List Hash → List Hash
  | 0, _ => []
  | fuel + 1, lvl =>
    if lvl.length ≤ 1 then []
    else next_level H lvl ++ build_from_fuel H fuel (next_level H lvl)

/-- Everything appended above a level; `lvl.length` fuel is enough. -/
def build_from (H : HasherM Hash) (lvl : List Hash) : List Hash :=
  build_from_fuel H lvl.length lvl

/-- The list of levels from a starting level down to the first level of
length at most 1 (fueled). -/
def levels_from_fuel (H : HasherM Hash) : Nat → List Hash → List (List Hash)
  | 0, lvl => [lvl]
  | fuel + 1, lvl =>
    if lvl.length ≤ 1 then [lvl]
    else lvl :: levels_from_fuel H fuel (next_level H lvl)

/-- The list of levels of the tree built from a leaf level. -/
def levels_from (H : HasherM Hash) (lvl : List Hash) : List (List Hash) :=
  levels_from_fuel H lvl.length lvl

/-- Number of digests appended above a level of a given length (fueled):
the length bookkeeping of `build_from_fuel`. -/
def above_count : Nat → Nat → Nat
  | 0, _ => 0
  | fuel + 1, l => if l ≤ 1 then 0 else (l + 1) / 2 + above_count fuel ((l + 1) / 2)

/-- A concrete instantiation of the `Hasher` contract over `Nat` digests,
used to evaluate the generic theorems on concrete inputs. -/
def natHasher : HasherM Nat where
  hash := fun l => l.foldl (fun a b => a * 1000003 + b + 1) 1
  toBytes := fun n => [n]
  hash_size := 8

/-- Type `Sha256Hasher::Hash = [u8; 32]` (src/hasher.rs): a byte sequence of
length exactly 32. -/
def Digest32 : Type := { l : Bytes // l.length = 32 }

/-- Value of `Hasher::hash_size()` for `Sha256Hasher`: the default trait method
returns `mem::size_of::<Self::Hash>()`, which is 32 bytes for `[u8; 32]`. -/
def sha256_hash_size : Nat := 32

/-- Conversion `TryFrom<Vec<u8>> for [u8; 32]` (the `TryFrom<Vec<u8>>` bound on
`Hasher::Hash`, instantiated by `Sha256Hasher`): conversion succeeds
exactly when the vector's length is 32, and otherwise fails, handing the
malformed byte sequence back as the error value — the only error condition
of the digest abstraction. -/
def tryFromBytes (v : Bytes) : Except Bytes Digest32 :=
  if h : v.length = 32 then Except.ok ⟨v, h⟩ else Except.error v

/-- Conversion `Into<Vec<u8>>` for `[u8; 32]`: the digest's bytes. -/
def Digest32.toBytes (d : Digest32) : Bytes := d.1

/-! ## Helper lemmas -/

theorem pairsOf_length (H : HasherM Hash) :
    ∀ l : List Hash, (pairsOf H l).length = l.length / 2
  | [] => by simp [pairsOf]
  | [_] => by simp [pairsOf]
  | _ :: _ :: rest => by
    simp only [pairsOf, List.length_cons, pairsOf_length H rest]
    omega

theorem next_level_length (H : HasherM Hash) :
    ∀ l : List Hash, (next_level H l).length = (l.length + 1) / 2
  | [] => by simp [next_level]
  | [_] => by simp [next_level]
  | _ :: _ :: rest => by
    simp only [next_level, List.length_cons, next_level_length H rest]
    omega

/-- A level, spec side, is its adjacent pairs followed by the unpaired odd
tail (empty for an even level). -/
theorem next_level_eq_pairs (H : HasherM Hash) :
    ∀ l : List Hash, next_level H l = pairsOf H l ++ l.drop (2 * (l.length / 2))
  | [] => by simp [next_level, pairsOf]
  | [a] => by simp [next_level, pairsOf]
  | a :: b :: rest => by
    have harith : 2 * ((rest.length + 1 + 1) / 2) = 2 * (rest.length / 2) + 2 := by
      omega
    simp only [next_level, pairsOf, List.length_cons, harith, List.drop_succ_cons,
      next_level_eq_pairs H rest, List.cons_append]

/-- A nonempty list dropped at its last index is the singleton of its last
entry. -/
theorem drop_pred_eq_singleton :
    ∀ (l : List Hash) (a : Hash), l[l.length - 1]? = some a →
      l.drop (l.length - 1) = [a] := by
  intro l a h
  have hpos : 0 < l.length := by
    by_contra hc
    have : l = [] := List.eq_nil_of_length_eq_zero (by omega)
    subst this
    simp at h
  have hlen : (l.drop (l.length - 1)).length = 1 := by
    simp [List.length_drop]
    omega
  have hget : (l.drop (l.length - 1))[0]? = some a := by
    rw [List.getElem?_drop]
    simpa using h
  match e : l.drop (l.length - 1) with
  | [] => rw [e] at hlen; simp at hlen
  | [x] =>
    rw [e] at hget
    simp at hget
    rw [hget]
  | x :: y :: t => rw [e] at hlen; simp at hlen

/-- The pair loop of `build_parents`, run on a vector holding `front`
followed by the level being combined followed by already-pushed material,
appends exactly the level's adjacent pairs: the loop reads stay inside the
level, so the pushes never feed back into the reads. -/
theorem push_pairs_spec (H : HasherM Hash) (front lvl : List Hash) :
    ∀ (count i : Nat) (rest : List Hash), 2 * i + 2 * count ≤ lvl.length →
      push_pairs H (front ++ lvl ++ rest) front.length i count
        = some (front ++ lvl ++ rest ++ (pairsOf H (lvl.drop (2 * i))).take count)
  | 0, i, rest, _ => by simp [push_pairs]
  | count + 1, i, rest, h => by
    have h2i : 2 * i < lvl.length := by omega
    have h2i1 : 2 * i + 1 < lvl.length := by omega
    have hL : (front ++ (lvl ++ rest))[front.length + 2 * i]? = some lvl[2 * i] := by
      rw [List.getElem?_append_right (Nat.le_add_right _ _)]
      rw [Nat.add_sub_cancel_left]
      rw [List.getElem?_append_left h2i]
      exact List.getElem?_eq_getElem h2i
    have hR : (front ++ (lvl ++ rest))[front.length + 2 * i + 1]? = some lvl[2 * i + 1] := by
      rw [Nat.add_assoc, List.getElem?_append_right (Nat.le_add_right _ _)]
      rw [Nat.add_sub_cancel_left]
      rw [List.getElem?_append_left h2i1]
      exact List.getElem?_eq_getElem h2i1
    have hdrop : lvl.drop (2 * i)
        = lvl[2 * i] :: lvl[2 * i + 1] :: lvl.drop (2 * i + 2) := by
      rw [List.drop_eq_getElem_cons h2i, List.drop_eq_getElem_cons h2i1]
    have hrec := push_pairs_spec H front lvl count (i + 1)
      (rest ++ [hash_pair H lvl[2 * i] (some lvl[2 * i + 1])]) (by omega)
    simp only [List.append_assoc] at hL hR hrec ⊢
    simp only [push_pairs, hL, hR]
    rw [show front ++ (lvl ++ rest) ++ [hash_pair H lvl[2 * i] (some lvl[2 * i + 1])]
          = front ++ (lvl ++ (rest ++ [hash_pair H lvl[2 * i] (some lvl[2 * i + 1])]))
        from by simp]
    rw [hrec]
    have h2s : 2 * (i + 1) = 2 * i + 2 := by omega
    rw [hdrop, h2s]
    simp [pairsOf]

/-- One call of `build_parents` on a level of length at least 2 appends
exactly the spec-side `next_level` and recurses past it, with the next
level one longer than the pair count exactly on odd levels. -/
theorem build_parents_step (H : HasherM Hash) (front lvl : List Hash) (f : Nat)
    (h2 : 2 ≤ lvl.length) :
    build_parents_fuel H (f + 1) (front ++ lvl) front.length lvl.length
      = build_parents_fuel H f (front ++ lvl ++ next_level H lvl)
          (front.length + lvl.length)
          (if lvl.length % 2 = 1 then lvl.length / 2 + 1 else lvl.length / 2) := by
  have hpairs := push_pairs_spec H front lvl (lvl.length / 2) 0 [] (by omega)
  have htake : (pairsOf H (lvl.drop (2 * 0))).take (lvl.length / 2) = pairsOf H lvl := by
    rw [show 2 * 0 = 0 from rfl, List.drop_zero]
    exact List.take_of_length_le (by rw [pairsOf_length])
  rw [htake] at hpairs
  simp only [List.append_nil] at hpairs
  simp only [build_parents_fuel, if_neg (by omega : ¬ lvl.length = 1), hpairs]
  rcases Nat.mod_two_eq_zero_or_one lvl.length with hmod | hmod
  · rw [if_neg (show ¬ lvl.length % 2 = 1 by omega),
      if_neg (show ¬ lvl.length % 2 = 1 by omega)]
    have hnext : next_level H lvl = pairsOf H lvl := by
      rw [next_level_eq_pairs]
      have h2l : 2 * (lvl.length / 2) = lvl.length := by omega
      rw [h2l, List.drop_length, List.append_nil]
    rw [hnext]
  · rw [if_pos hmod, if_pos hmod]
    have hidx : lvl.length - 1 < lvl.length := by omega
    have hlast : (front ++ (lvl ++ pairsOf H lvl))[front.length + lvl.length - 1]?
        = some lvl[lvl.length - 1] := by
      rw [show front.length + lvl.length - 1 = front.length + (lvl.length - 1) from by omega]
      rw [List.getElem?_append_right (Nat.le_add_right _ _), Nat.add_sub_cancel_left]
      rw [List.getElem?_append_left hidx]
      exact List.getElem?_eq_getElem hidx
    simp only [List.append_assoc] at hlast ⊢
    rw [hlast]
    have hnext : next_level H lvl = pairsOf H lvl ++ [lvl[lvl.length - 1]] := by
      rw [next_level_eq_pairs]
      have h2l : 2 * (lvl.length / 2) = lvl.length - 1 := by omega
      rw [h2l, drop_pred_eq_singleton lvl lvl[lvl.length - 1]
        (List.getElem?_eq_getElem hidx)]
    rw [hnext]

/-- Function `build_parents`, started just past a seed `front` on a nonempty level
with at least as much fuel as the level length, terminates and appends
exactly the spec-side `build_from` material. -/
theorem build_parents_refines (H : HasherM Hash) :
    ∀ (f : Nat) (front lvl : List Hash), 1 ≤ lvl.length → lvl.length ≤ f →
      build_parents_fuel H f (front ++ lvl) front.length lvl.length
        = some (front ++ lvl ++ build_from_fuel H f lvl) := by
  intro f
  induction f with
  | zero => intro front lvl h1 h0; omega
  | succ f ih =>
    intro front lvl h1 hf
    by_cases hone : lvl.length = 1
    · have hle : lvl.length ≤ 1 := by omega
      simp only [build_parents_fuel, if_pos hone, build_from_fuel, if_pos hle,
        List.append_nil]
    · have h2 : 2 ≤ lvl.length := by omega
      rw [build_parents_step H front lvl f h2]
      have hlen : (if lvl.length % 2 = 1 then lvl.length / 2 + 1 else lvl.length / 2)
          = (next_level H lvl).length := by
        rw [next_level_length]
        rcases Nat.mod_two_eq_zero_or_one lvl.length with hmod | hmod
        · rw [if_neg (show ¬ lvl.length % 2 = 1 by omega)]; omega
        · rw [if_pos hmod]; omega
      have hfront : front.length + lvl.length = (front ++ lvl).length := by
        simp
      have hassoc : front ++ lvl ++ next_level H lvl
          = (front ++ lvl) ++ next_level H lvl := by simp
      rw [hlen, hfront, hassoc,
        ih (front ++ lvl) (next_level H lvl)
          (by rw [next_level_length]; omega)
          (by rw [next_level_length]; omega)]
      simp only [build_from_fuel, if_neg (by omega : ¬ lvl.length ≤ 1)]
      simp

/-- Running `from_leaves` on nonempty input: the tree vector is the hashed leaves
followed by the spec-side level material, `leaves` stays 0, and the two
scalar metrics come from `calculate_height` and `calculate_nodes`. -/
theorem from_leaves_eq (H : HasherM Hash) (data : List Bytes) (h : data ≠ []) :
    from_leaves H data = some
      { tree := hash_leaves H data ++ build_from H (hash_leaves H data),
        leaves := 0,
        nodes := calculate_nodes (calculate_height data.length),
        height := calculate_height data.length,
        hash_size := H.hash_size } := by
  have hdl : (hash_leaves H data).length = data.length := by
    simp [hash_leaves]
  have h1 : 1 ≤ (hash_leaves H data).length := by
    rw [hdl]
    have := List.length_pos.mpr h
    omega
  have hbp := build_parents_refines H (hash_leaves H data).length []
    (hash_leaves H data) h1 (le_refl _)
  simp only [List.nil_append, List.length_nil] at hbp
  simp only [from_leaves, build_parents, hbp]
  simp only [build_from, hdl]

/-- Reading just past a front segment lands in the middle segment. -/
theorem getElem?_append_middle (front mid rest : List Hash) (k : Nat)
    (hk : k < mid.length) :
    (front ++ (mid ++ rest))[front.length + k]? = mid[k]? := by
  rw [List.getElem?_append_right (Nat.le_add_right _ _), Nat.add_sub_cancel_left,
    List.getElem?_append_left hk]

/-- The number of digests `build_from` appends depends only on the level's
length, through `above_count`. -/
theorem build_from_fuel_length (H : HasherM Hash) :
    ∀ (f : Nat) (lvl : List Hash),
      (build_from_fuel H f lvl).length = above_count f lvl.length
  | 0, lvl => by simp [build_from_fuel, above_count]
  | f + 1, lvl => by
    by_cases hle : lvl.length ≤ 1
    · simp [build_from_fuel, above_count, hle]
    · simp only [build_from_fuel, above_count, if_neg hle, List.length_append,
        build_from_fuel_length H f (next_level H lvl), next_level_length]

/-- The levels list is never empty. -/
theorem levels_from_fuel_ne_nil (H : HasherM Hash) (f : Nat) (lvl : List Hash) :
    levels_from_fuel H f lvl ≠ [] := by
  cases f with
  | zero => simp [levels_from_fuel]
  | succ f =>
    by_cases hle : lvl.length ≤ 1 <;> simp [levels_from_fuel, hle]

/-- The levels list starts at the given level. -/
theorem levels_from_fuel_head (H : HasherM Hash) (f : Nat) (lvl : List Hash) :
    (levels_from_fuel H f lvl).head? = some lvl := by
  cases f with
  | zero => simp [levels_from_fuel]
  | succ f =>
    by_cases hle : lvl.length ≤ 1 <;> simp [levels_from_fuel, hle]

/-- Consecutive levels of the levels list are related by `next_level`. -/
theorem levels_from_fuel_chain (H : HasherM Hash) :
    ∀ (f : Nat) (lvl : List Hash),
      List.Chain' (fun a b => b = next_level H a) (levels_from_fuel H f lvl)
  | 0, _ => by simp [levels_from_fuel]
  | f + 1, lvl => by
    by_cases hle : lvl.length ≤ 1
    · simp [levels_from_fuel, hle]
    · simp only [levels_from_fuel, if_neg hle]
      refine List.chain'_cons'.mpr ⟨?_, levels_from_fuel_chain H f (next_level H lvl)⟩
      intro y hy
      rw [levels_from_fuel_head H f (next_level H lvl)] at hy
      exact (Option.some_inj.mp hy).symm

/-- The level material above a level, flattened, is the levels list flattened
without its head. -/
theorem levels_from_fuel_join (H : HasherM Hash) :
    ∀ (f : Nat) (lvl : List Hash),
      lvl ++ build_from_fuel H f lvl = (levels_from_fuel H f lvl).flatten
  | 0, lvl => by simp [build_from_fuel, levels_from_fuel]
  | f + 1, lvl => by
    by_cases hle : lvl.length ≤ 1
    · simp [build_from_fuel, levels_from_fuel, hle]
    · simp only [build_from_fuel, levels_from_fuel, if_neg hle, List.flatten_cons,
        ← levels_from_fuel_join H f (next_level H lvl), List.append_assoc]

/-- With enough fuel, the levels list bottoms out at a singleton level
whose sole digest is also the last entry of the flattened array. -/
theorem levels_from_fuel_last (H : HasherM Hash) :
    ∀ (f : Nat) (lvl : List Hash), 1 ≤ lvl.length → lvl.length ≤ f →
      ∃ r, (levels_from_fuel H f lvl).getLast? = some [r]
        ∧ (lvl ++ build_from_fuel H f lvl).getLast? = some r := by
  intro f
  induction f with
  | zero => intro lvl h1 h0; omega
  | succ f ih =>
    intro lvl h1 hf
    by_cases hone : lvl.length = 1
    · match lvl, hone with
      | [x], _ =>
        refine ⟨x, ?_, ?_⟩
        · simp [levels_from_fuel]
        · simp [build_from_fuel]
    · have h2 : 2 ≤ lvl.length := by omega
      obtain ⟨r, hlast, harr⟩ := ih (next_level H lvl)
        (by rw [next_level_length]; omega) (by rw [next_level_length]; omega)
      refine ⟨r, ?_, ?_⟩
      · simp only [levels_from_fuel, if_neg (by omega : ¬ lvl.length ≤ 1)]
        rw [List.getLast?_cons, hlast]
        simp
      · simp only [build_from_fuel, if_neg (by omega : ¬ lvl.length ≤ 1)]
        rw [← List.append_assoc, List.getLast?_append,
          List.getLast?_append] at *
        cases hA : (build_from_fuel H f (next_level H lvl)).getLast? with
        | some x =>
          rw [hA] at harr
          simp only [Option.or] at harr ⊢
          exact harr
        | none =>
          rw [hA] at harr
          simp only [Option.or] at harr ⊢
          rw [harr]

/-- Entry `k` of a level's pair list combines entries `2k` and `2k + 1` of
the level. -/
theorem pairsOf_getElem (H : HasherM Hash) :
    ∀ (l : List Hash) (k : Nat) (a b : Hash), l[2 * k]? = some a →
      l[2 * k + 1]? = some b →
      (pairsOf H l)[k]? = some (hash_pair H a (some b))
  | [], k, a, b, ha, _ => by simp at ha
  | [x], k, a, b, ha, hb => by
    rcases k with _ | k <;> simp at ha hb
  | x :: y :: rest, k, a, b, ha, hb => by
    rcases k with _ | k
    · simp at ha hb
      rw [pairsOf, ha, hb]
      simp
    · have ha2 : rest[2 * k]? = some a := by
        rw [show 2 * (k + 1) = 2 * k + 1 + 1 from by omega] at ha
        simpa using ha
      have hb2 : rest[2 * k + 1]? = some b := by
        rw [show 2 * (k + 1) + 1 = 2 * k + 1 + 1 + 1 from by omega] at hb
        simpa using hb
      rw [pairsOf]
      simpa using pairsOf_getElem H rest k a b ha2 hb2

/-- Every entry the builder appends above the leaf level is either the
combination of two entries at strictly earlier indices, or a verbatim copy
of one entry at a strictly earlier index (the odd-level promotion). -/
theorem build_from_children (H : HasherM Hash) :
    ∀ (f : Nat) (front lvl whole : List Hash),
      whole = front ++ lvl ++ build_from_fuel H f lvl →
      ∀ j, front.length + lvl.length ≤ j → j < whole.length →
      (∃ i1 i2 a b, i1 < j ∧ i2 < j ∧ whole[i1]? = some a ∧ whole[i2]? = some b
        ∧ whole[j]? = some (hash_pair H a (some b)))
      ∨ (∃ i, i < j ∧ whole[i]? = whole[j]?) := by
  intro f
  induction f with
  | zero =>
    intro front lvl whole hw j hj1 hj2
    subst hw
    simp only [build_from_fuel, List.append_nil, List.length_append] at hj2
    omega
  | succ f ih =>
    intro front lvl whole hw j hj1 hj2
    by_cases hle : lvl.length ≤ 1
    · rw [hw] at hj2
      simp only [build_from_fuel, if_pos hle, List.append_nil,
        List.length_append] at hj2
      omega
    · have h2 : 2 ≤ lvl.length := by omega
      have hbf : build_from_fuel H (f + 1) lvl
          = next_level H lvl ++ build_from_fuel H f (next_level H lvl) := by
        simp only [build_from_fuel, if_neg hle]
      by_cases hsplit : front.length + lvl.length + (next_level H lvl).length ≤ j
      · refine ih (front ++ lvl) (next_level H lvl) whole ?_ j (by simpa using hsplit) hj2
        rw [hw, hbf]
        simp [List.append_assoc]
      · -- `j` addresses the next level itself
        set k := j - (front.length + lvl.length) with hk
        have hklt : k < (next_level H lvl).length := by omega
        have hwj : whole[j]? = (next_level H lvl)[k]? := by
          rw [hw, hbf]
          rw [show j = front.length + (lvl.length + k) from by omega]
          rw [List.append_assoc, List.getElem?_append_right (Nat.le_add_right _ _),
            Nat.add_sub_cancel_left,
            List.getElem?_append_right (Nat.le_add_right _ _),
            Nat.add_sub_cancel_left,
            List.getElem?_append_left hklt]
        have hnl : (next_level H lvl).length = (lvl.length + 1) / 2 :=
          next_level_length H lvl
        have hlvlget : ∀ t, t < lvl.length → whole[front.length + t]? = lvl[t]? := by
          intro t ht
          rw [hw, List.append_assoc, getElem?_append_middle front lvl _ t ht]
        by_cases hkp : k < lvl.length / 2
        · -- a combined pair
          have h2k1 : 2 * k + 1 < lvl.length := by omega
          have h2k : 2 * k < lvl.length := by omega
          have ha : lvl[2 * k]? = some lvl[2 * k] := List.getElem?_eq_getElem h2k
          have hb : lvl[2 * k + 1]? = some lvl[2 * k + 1] :=
            List.getElem?_eq_getElem h2k1
          have hpair := pairsOf_getElem H lvl k _ _ ha hb
          have hnk : (next_level H lvl)[k]? = (pairsOf H lvl)[k]? := by
            rw [next_level_eq_pairs]
            exact List.getElem?_append_left (by rw [pairsOf_length]; omega)
          left
          refine ⟨front.length + 2 * k, front.length + 2 * k + 1,
            lvl[2 * k], lvl[2 * k + 1], by omega, by omega, ?_, ?_, ?_⟩
          · rw [hlvlget _ h2k]; exact ha
          · rw [show front.length + 2 * k + 1 = front.length + (2 * k + 1) from by omega,
              hlvlget _ h2k1]
            exact hb
          · rw [hwj, hnk, hpair]
        · -- the promoted odd entry
          have hodd : lvl.length % 2 = 1 ∧ k = lvl.length / 2 := by omega
          have hidx : lvl.length - 1 < lvl.length := by omega
          have hlastget : lvl[lvl.length - 1]? = some lvl[lvl.length - 1] :=
            List.getElem?_eq_getElem hidx
          right
          refine ⟨front.length + (lvl.length - 1), by omega, ?_⟩
          rw [hlvlget _ hidx, hwj, hodd.2]
          rw [next_level_eq_pairs,
            List.getElem?_append_right (by rw [pairsOf_length])]
          rw [pairsOf_length, Nat.sub_self,
            show 2 * (lvl.length / 2) = lvl.length - 1 from by omega,
            drop_pred_eq_singleton lvl _ hlastget]
          simp [hlastget]

/-- With enough fuel, `floorLog2Aux` brackets its argument between two
consecutive powers of two. -/
theorem floorLog2Aux_spec :
    ∀ (fuel m : Nat), 1 ≤ m → m ≤ fuel →
      2 ^ floorLog2Aux fuel m ≤ m ∧ m < 2 ^ (floorLog2Aux fuel m + 1) := by
  intro fuel
  induction fuel with
  | zero => intro m h1 h0; omega
  | succ fuel ih =>
    intro m h1 hf
    by_cases hle : m ≤ 1
    · simp only [floorLog2Aux, if_pos hle]
      omega
    · have h2 : 2 ≤ m := by omega
      simp only [floorLog2Aux, if_neg hle]
      obtain ⟨hlo, hhi⟩ := ih (m / 2) (by omega) (by omega)
      have e1 : 2 ^ (floorLog2Aux fuel (m / 2) + 1)
          = 2 * 2 ^ floorLog2Aux fuel (m / 2) := by ring
      have e2 : 2 ^ (floorLog2Aux fuel (m / 2) + 1 + 1)
          = 2 * 2 ^ (floorLog2Aux fuel (m / 2) + 1) := by ring
      omega

/-- Function `floorLog2` brackets a positive argument between consecutive powers of
two. -/
theorem floorLog2_spec (m : Nat) (h : 1 ≤ m) :
    2 ^ floorLog2 m ≤ m ∧ m < 2 ^ (floorLog2 m + 1) :=
  floorLog2Aux_spec m m h le_rfl

/-- For at least two leaves, the integer computation of `calculate_height`
is exactly the rounding (half towards plus infinity; the real logarithm
never ties at integer arguments) of the real base-2 logarithm of
`num_leaves + 1`. This validates the integer definition against the
real-arithmetic idealisation of the source's float formula only — not
against the f32 computation itself, which can differ where the computed
float lands on a representable half-integer. -/
theorem calculate_height_eq_round (n : Nat) (h2 : 2 ≤ n) :
    (calculate_height n : ℤ) = round (Real.logb 2 ((n : ℝ) + 1)) := by
  have hm1 : 1 ≤ n + 1 := by omega
  obtain ⟨hlo, hhi⟩ := floorLog2_spec (n + 1) hm1
  have hb : (1 : ℝ) < 2 := one_lt_two
  have hmpos : (0 : ℝ) < ((n + 1 : ℕ) : ℝ) := by
    exact_mod_cast Nat.succ_pos n
  have hcast : ((n : ℝ) + 1) = ((n + 1 : ℕ) : ℝ) := by push_cast; ring
  rw [hcast]
  simp only [calculate_height, if_neg (show ¬ n = 1 by omega)]
  set f := floorLog2 (n + 1) with hfdef
  set x := Real.logb 2 ((n + 1 : ℕ) : ℝ) with hxdef
  have hxlow : (f : ℝ) ≤ x := by
    rw [hxdef, Real.le_logb_iff_rpow_le hb hmpos, Real.rpow_natCast]
    exact_mod_cast hlo
  have hxhigh : x < (f : ℝ) + 1 := by
    rw [show (f : ℝ) + 1 = ((f + 1 : ℕ) : ℝ) from by push_cast; ring,
      hxdef, Real.logb_lt_iff_lt_rpow hb hmpos, Real.rpow_natCast]
    exact_mod_cast hhi
  have hlog2 : Real.logb 2 (((n + 1 : ℕ) : ℝ) ^ 2) = 2 * x := by
    rw [Real.logb_pow, hxdef]
    push_cast
    ring
  have hsqpos : (0 : ℝ) < ((n + 1 : ℕ) : ℝ) ^ 2 := pow_pos hmpos 2
  by_cases hca : 2 ^ (2 * f + 1) ≤ (n + 1) * (n + 1)
  · rw [if_pos hca, round_eq]
    have hle : ((2 * f + 1 : ℕ) : ℝ) ≤ 2 * x := by
      rw [← hlog2, Real.le_logb_iff_rpow_le hb hsqpos, Real.rpow_natCast]
      have hc : ((2 ^ (2 * f + 1) : ℕ) : ℝ) ≤ (((n + 1) * (n + 1) : ℕ) : ℝ) :=
        Nat.cast_le.mpr hca
      push_cast at hc ⊢
      nlinarith [hc]
    have hfloor : ⌊x + 1 / 2⌋ = (f : ℤ) + 1 := by
      rw [Int.floor_eq_iff]
      push_cast at hle ⊢
      constructor <;> linarith
    rw [hfloor]
    push_cast
    ring
  · rw [if_neg hca, round_eq]
    have hlt : 2 * x < ((2 * f + 1 : ℕ) : ℝ) := by
      rw [← hlog2, Real.logb_lt_iff_lt_rpow hb hsqpos, Real.rpow_natCast]
      have hc : (((n + 1) * (n + 1) : ℕ) : ℝ) < ((2 ^ (2 * f + 1) : ℕ) : ℝ) :=
        Nat.cast_lt.mpr (lt_of_not_le hca)
      push_cast at hc ⊢
      nlinarith [hc]
    have hfloor : ⌊x + 1 / 2⌋ = (f : ℤ) := by
      rw [Int.floor_eq_iff]
      push_cast at hlt ⊢
      constructor <;> linarith
    rw [hfloor]

/-- Running `from_leaves` on nonempty input, metrics view: the tree is built, its
`height` and `nodes` fields come from the two `calculate` functions on the
input length, `leaves` stays 0, and the occupied length is the input
length plus the level material above it. -/
theorem from_leaves_metrics (H : HasherM Hash) (data : List Bytes)
    (h : data ≠ []) :
    ∃ m, from_leaves H data = some m
      ∧ m.height = calculate_height data.length
      ∧ m.nodes = calculate_nodes (calculate_height data.length)
      ∧ m.leaves = 0
      ∧ m.tree.length = data.length + above_count data.length data.length
      ∧ m.tree = hash_leaves H data ++ build_from H (hash_leaves H data) := by
  refine ⟨_, from_leaves_eq H data h, rfl, rfl, rfl, ?_, rfl⟩
  have hdl : (hash_leaves H data).length = data.length := by simp [hash_leaves]
  simp only [List.length_append, build_from, build_from_fuel_length, hdl]

/-! ## The claims -/

/-- C1: for every pair of digests, `hash_pair` with a present right sibling
returns the hash of the concatenation of the left digest's bytes followed
by the right digest's bytes (no separator); with an absent right sibling it
returns the left digest unchanged, with no re-hashing applied. -/
theorem claim_C1_hash_pair (A : Type) (H : HasherM A) :
    (∀ left right : A,
        hash_pair H left (some right) = H.hash (H.toBytes left ++ H.toBytes right))
    ∧ (∀ left : A, hash_pair H left none = left) :=
  ⟨fun _ _ => rfl, fun _ => rfl⟩

/-- C2: a `build_parents` call on a level of length at least 2 appends the
next level and recurses past it with logical length `pair_count + 1` when
the level length is odd and `pair_count` when it is even; on an odd level
the appended material ends with a byte-identical direct copy of the
unpaired digest at index `start_index + length - 1`, the copy sitting at
index `start_index + length + pair_count` of the array. -/
theorem claim_C2_odd_promotion (A : Type) (H : HasherM A) (front lvl : List A)
    (f : Nat) (h2 : 2 ≤ lvl.length) :
    (build_parents_fuel H (f + 1) (front ++ lvl) front.length lvl.length
      = build_parents_fuel H f (front ++ lvl ++ next_level H lvl)
          (front.length + lvl.length)
          (if lvl.length % 2 = 1 then lvl.length / 2 + 1 else lvl.length / 2))
    ∧ (lvl.length % 2 = 1 →
        (next_level H lvl).length = lvl.length / 2 + 1
        ∧ (front ++ lvl ++ next_level H lvl)[front.length + lvl.length + lvl.length / 2]?
            = (front ++ lvl)[front.length + lvl.length - 1]?)
    ∧ (lvl.length % 2 = 0 → (next_level H lvl).length = lvl.length / 2) := by
  refine ⟨build_parents_step H front lvl f h2, fun hodd => ⟨?_, ?_⟩, fun heven => ?_⟩
  · rw [next_level_length]; omega
  · have hidx : lvl.length - 1 < lvl.length := by omega
    have hcopy : (next_level H lvl)[lvl.length / 2]? = lvl[lvl.length - 1]? := by
      rw [next_level_eq_pairs,
        List.getElem?_append_right (by rw [pairsOf_length]),
        pairsOf_length, Nat.sub_self,
        show 2 * (lvl.length / 2) = lvl.length - 1 from by omega,
        drop_pred_eq_singleton lvl _ (List.getElem?_eq_getElem hidx)]
      simp [List.getElem?_eq_getElem hidx]
    have hleft : (front ++ (lvl ++ next_level H lvl))[front.length + lvl.length + lvl.length / 2]?
        = (next_level H lvl)[lvl.length / 2]? := by
      rw [show front.length + lvl.length + lvl.length / 2
            = front.length + (lvl.length + lvl.length / 2) from by omega,
        List.getElem?_append_right (Nat.le_add_right _ _), Nat.add_sub_cancel_left,
        List.getElem?_append_right (Nat.le_add_right _ _), Nat.add_sub_cancel_left]
    have hright : (front ++ lvl)[front.length + lvl.length - 1]? = lvl[lvl.length - 1]? := by
      rw [show front.length + lvl.length - 1 = front.length + (lvl.length - 1) from by omega,
        List.getElem?_append_right (Nat.le_add_right _ _), Nat.add_sub_cancel_left]
    rw [List.append_assoc, hleft, hcopy, hright]
  · rw [next_level_length]; omega

/-- C2 witness: the theorem applied to a concrete three-entry level. -/
theorem claim_C2_odd_promotion_witness :
    2 ≤ ([10, 20, 30] : List Nat).length
    ∧ (next_level natHasher [10, 20, 30]).length = 2 :=
  ⟨by decide,
    ((claim_C2_odd_promotion Nat natHasher [] [10, 20, 30] 5 (by decide)).2.1
      (by decide)).1⟩

/-- C3: for every non-empty input sequence of byte buffers, the first `n`
entries of the tree array built by `from_leaves` are the hashes of the
items, in input order. -/
theorem claim_C3_leading_leaves (A : Type) (H : HasherM A) (data : List Bytes)
    (h : data ≠ []) :
    ∃ m, from_leaves H data = some m
      ∧ m.tree.take data.length = data.map H.hash
      ∧ (∀ i, i < data.length → m.tree[i]? = (data.map H.hash)[i]?) := by
  obtain ⟨m, hm, _, _, _, _, htree⟩ := from_leaves_metrics H data h
  have hdl : (hash_leaves H data).length = data.length := by simp [hash_leaves]
  refine ⟨m, hm, ?_, ?_⟩
  · rw [htree, ← hdl, List.take_left]
    rfl
  · intro i hi
    rw [htree, List.getElem?_append_left (by omega)]
    rfl

/-- C3 witness: the theorem applied to a concrete two-item input. -/
theorem claim_C3_leading_leaves_witness :
    ∃ m, from_leaves natHasher [[1], [2]] = some m
      ∧ m.tree.take 2 = List.map natHasher.hash [[1], [2]] :=
  (claim_C3_leading_leaves Nat natHasher [[1], [2]] (by decide)).imp
    (fun _ hm => ⟨hm.1, hm.2.1⟩)

/-- C4: for every non-empty input, the tree array is the flattening of the
list of levels (leaf level first, each level `next_level` of the previous,
left-to-right within each level, no gaps), and every entry beyond the first
`leaf_count` is the combination of two earlier entries or — for the odd
promotion, whose combination has an absent right child and is a verbatim
copy — equal to one earlier entry. -/
theorem claim_C4_level_order (A : Type) (H : HasherM A) (data : List Bytes)
    (h : data ≠ []) :
    ∃ m, from_leaves H data = some m
      ∧ m.tree = (levels_from H (hash_leaves H data)).flatten
      ∧ (levels_from H (hash_leaves H data)).head? = some (hash_leaves H data)
      ∧ List.Chain' (fun a b => b = next_level H a)
          (levels_from H (hash_leaves H data))
      ∧ (∀ j, data.length ≤ j → j < m.tree.length →
          (∃ i1 i2 a b, i1 < j ∧ i2 < j ∧ m.tree[i1]? = some a
            ∧ m.tree[i2]? = some b ∧ m.tree[j]? = some (hash_pair H a (some b)))
          ∨ (∃ i, i < j ∧ m.tree[i]? = m.tree[j]?)) := by
  obtain ⟨m, hm, _, _, _, _, htree⟩ := from_leaves_metrics H data h
  have hdl : (hash_leaves H data).length = data.length := by simp [hash_leaves]
  refine ⟨m, hm, ?_, levels_from_fuel_head H _ _, levels_from_fuel_chain H _ _, ?_⟩
  · rw [htree, build_from, levels_from, levels_from_fuel_join]
  · intro j hj1 hj2
    exact build_from_children H (hash_leaves H data).length [] (hash_leaves H data)
      m.tree (by rw [htree, build_from]; simp) j (by simp [hdl]; omega) hj2

/-- C4 witness: the theorem applied to a concrete three-item input. -/
theorem claim_C4_level_order_witness :
    ∃ m, from_leaves natHasher [[1], [2], [3]] = some m
      ∧ m.tree = (levels_from natHasher (hash_leaves natHasher [[1], [2], [3]])).flatten :=
  (claim_C4_level_order Nat natHasher [[1], [2], [3]] (by decide)).imp
    (fun _ hm => ⟨hm.1, hm.2.1⟩)

/-- C5: the reference outputs: `from_leaves` on 1 item gives height 1 and a
single stored digest, the hash of the item; on 4 items height 2 and 7
digests; on 7 items height 3 and 14; on 8 items height 3 and 15; on 10
items height 3 and 21; on 11 items height 4 and 23 (`nodes()` is the
occupied array length). -/
theorem claim_C5_reference_values :
    (∀ (A : Type) (H : HasherM A) (d : Bytes),
      ∃ m, from_leaves H [d] = some m ∧ m.height = 1 ∧ m.nodesCount = 1
        ∧ m.tree = [H.hash d])
    ∧ (∀ (A : Type) (H : HasherM A) (data : List Bytes), data.length = 4 →
      ∃ m, from_leaves H data = some m ∧ m.height = 2 ∧ m.nodesCount = 7)
    ∧ (∀ (A : Type) (H : HasherM A) (data : List Bytes), data.length = 7 →
      ∃ m, from_leaves H data = some m ∧ m.height = 3 ∧ m.nodesCount = 14)
    ∧ (∀ (A : Type) (H : HasherM A) (data : List Bytes), data.length = 8 →
      ∃ m, from_leaves H data = some m ∧ m.height = 3 ∧ m.nodesCount = 15)
    ∧ (∀ (A : Type) (H : HasherM A) (data : List Bytes), data.length = 10 →
      ∃ m, from_leaves H data = some m ∧ m.height = 3 ∧ m.nodesCount = 21)
    ∧ (∀ (A : Type) (H : HasherM A) (data : List Bytes), data.length = 11 →
      ∃ m, from_leaves H data = some m ∧ m.height = 4 ∧ m.nodesCount = 23) := by
  have key : ∀ (A : Type) (H : HasherM A) (data : List Bytes) (n : Nat),
      data.length = n → 1 ≤ n →
      ∃ m, from_leaves H data = some m ∧ m.height = calculate_height n
        ∧ m.nodesCount = n + above_count n n := by
    intro A H data n hn h1
    obtain ⟨m, hm, hh, _, _, hlen, _⟩ := from_leaves_metrics H data
      (by intro e; rw [e] at hn; simp at hn; omega)
    exact ⟨m, hm, by rw [hh, hn], by rw [MerkleTree.nodesCount, hlen, hn]⟩
  refine ⟨?_, ?_, ?_, ?_, ?_, ?_⟩
  · intro A H d
    obtain ⟨m, hm, hh, hc⟩ := key A H [d] 1 rfl (by omega)
    refine ⟨m, hm, hh, hc, ?_⟩
    obtain ⟨m2, hm2, _, _, _, _, htree⟩ := from_leaves_metrics H [d] (by simp)
    rw [hm] at hm2
    cases hm2
    rw [htree]
    simp [hash_leaves, build_from, build_from_fuel]
  · intro A H data hn
    obtain ⟨m, hm, hh, hc⟩ := key A H data 4 hn (by omega)
    exact ⟨m, hm, hh, hc⟩
  · intro A H data hn
    obtain ⟨m, hm, hh, hc⟩ := key A H data 7 hn (by omega)
    exact ⟨m, hm, hh, hc⟩
  · intro A H data hn
    obtain ⟨m, hm, hh, hc⟩ := key A H data 8 hn (by omega)
    exact ⟨m, hm, hh, hc⟩
  · intro A H data hn
    obtain ⟨m, hm, hh, hc⟩ := key A H data 10 hn (by omega)
    exact ⟨m, hm, hh, hc⟩
  · intro A H data hn
    obtain ⟨m, hm, hh, hc⟩ := key A H data 11 hn (by omega)
    exact ⟨m, hm, hh, hc⟩

/-- C5 witness: the four-item component applied to a concrete input. -/
theorem claim_C5_reference_values_witness :
    ([[0], [1], [2], [3]] : List Bytes).length = 4
    ∧ ∃ m, from_leaves natHasher [[0], [1], [2], [3]] = some m
        ∧ m.height = 2 ∧ m.nodesCount = 7 :=
  ⟨by decide,
    claim_C5_reference_values.2.1 Nat natHasher [[0], [1], [2], [3]] (by decide)⟩

/-- C7: for every non-empty input the level combination terminates — the
build succeeds and the levels list bottoms out at a level of length
exactly 1 — and that single remaining digest, the root, is the last
element of the array. -/
theorem claim_C7_termination_root (A : Type) (H : HasherM A) (data : List Bytes)
    (h : data ≠ []) :
    ∃ m, from_leaves H data = some m
      ∧ ∃ r, (levels_from H (hash_leaves H data)).getLast? = some [r]
          ∧ m.tree.getLast? = some r := by
  obtain ⟨m, hm, _, _, _, _, htree⟩ := from_leaves_metrics H data h
  have h1 : 1 ≤ (hash_leaves H data).length := by
    simpa [hash_leaves] using List.length_pos.mpr h
  obtain ⟨r, hlast, harr⟩ :=
    levels_from_fuel_last H (hash_leaves H data).length (hash_leaves H data) h1 le_rfl
  exact ⟨m, hm, r, hlast, by rw [htree, build_from]; exact harr⟩

/-- C7 witness: the theorem applied to a concrete two-item input. -/
theorem claim_C7_termination_root_witness :
    ∃ m, from_leaves natHasher [[5], [6]] = some m
      ∧ ∃ r, (levels_from natHasher (hash_leaves natHasher [[5], [6]])).getLast? = some [r]
          ∧ m.tree.getLast? = some r :=
  claim_C7_termination_root Nat natHasher [[5], [6]] (by decide)

/-- C8: the source never assigns the `leaves` field — `new()` initialises
it to 0 and neither `from_leaves` nor `build_tree` updates it — so after
`from_leaves` on the one-item input `[[1]]` the `leaves` metric is 0, not
the input length 1 that the field's own documentation and the spec
describe. -/
theorem claim_C8_leaves_not_recorded :
    (from_leaves natHasher [[1]]).map MerkleTree.leaves = some 0
    ∧ ([[1]] : List Bytes).length = 1
    ∧ (from_leaves natHasher [[1]]).map MerkleTree.leaves
        ≠ some ([[1]] : List Bytes).length := by
  refine ⟨?_, rfl, ?_⟩ <;> decide

/-- C9: reconstructing a digest from a byte sequence fails exactly when the
sequence's length differs from the digest size; for the SHA-256
instantiation `[u8; 32]`, reconstruction succeeds (losslessly) if and only
if the input has length `32 = hash_size()`, and a wrong length is the only
error condition. -/
theorem claim_C9_digest_reconstruction :
    sha256_hash_size = 32
    ∧ (∀ v : Bytes, (∃ d, tryFromBytes v = Except.ok d ∧ d.toBytes = v)
        ↔ v.length = sha256_hash_size)
    ∧ (∀ v : Bytes, tryFromBytes v = Except.error v ↔ v.length ≠ sha256_hash_size) := by
  refine ⟨rfl, fun v => ⟨?_, ?_⟩, fun v => ⟨?_, ?_⟩⟩
  · rintro ⟨d, hd, -⟩
    by_contra hlen
    rw [tryFromBytes, dif_neg (by simpa [sha256_hash_size] using hlen)] at hd
    exact Except.noConfusion hd
  · intro hlen
    rw [sha256_hash_size] at hlen
    exact ⟨⟨v, hlen⟩, by rw [tryFromBytes, dif_pos hlen], rfl⟩
  · intro hd hlen
    rw [tryFromBytes, dif_pos (by simpa [sha256_hash_size] using hlen)] at hd
    exact Except.noConfusion hd
  · intro hlen
    rw [tryFromBytes, dif_neg (by simpa [sha256_hash_size] using hlen)]

/-- C10: for a 10-item input the build stores 21 digests while the
pre-computed `nodes` field is `2 ^ (height + 1) - 1 = 15`, so `nodes` is
not an upper bound on the occupied length and the array grows past the
pre-allocation. -/
theorem claim_C10_capacity_exceeded (A : Type) (H : HasherM A)
    (data : List Bytes) (h : data.length = 10) :
    ∃ m, from_leaves H data = some m
      ∧ m.nodesCount = 21 ∧ m.nodes = 15
      ∧ m.nodes = 2 ^ (m.height + 1) - 1
      ∧ m.nodes < m.nodesCount := by
  obtain ⟨m, hm, hh, hn, _, hlen, _⟩ := from_leaves_metrics H data
    (by intro e; rw [e] at h; simp at h)
  rw [h] at hh hn hlen
  have hcount : m.nodesCount = 21 := by
    rw [MerkleTree.nodesCount, hlen]
    decide
  have hnodes : m.nodes = 15 := by
    rw [hn]
    decide
  refine ⟨m, hm, hcount, hnodes, ?_, by omega⟩
  rw [hnodes, hh]
  decide

/-- C10 witness: the theorem applied to a concrete ten-item input. -/
theorem claim_C10_capacity_exceeded_witness :
    ∃ m, from_leaves natHasher
        [[0], [1], [2], [3], [4], [5], [6], [7], [8], [9]] = some m
      ∧ m.nodesCount = 21 ∧ m.nodes = 15
      ∧ m.nodes = 2 ^ (m.height + 1) - 1
      ∧ m.nodes < m.nodesCount :=
  claim_C10_capacity_exceeded Nat natHasher
    [[0], [1], [2], [3], [4], [5], [6], [7], [8], [9]] (by decide)

end Merkle
